import Mathlib

/-!
Verification of the synapse document pipeline.

Shallow embedding of the core algorithms of the backend (`ingest.py`,
`main.py`): the overlapping chunker `chunk_text`, the rule-based
classifier `categorize_document`, the text-extraction dispatch
`extract_text` (both the ingest.py variant and the main.py variant),
the ingestion record builder `ingest_document`, and the search-result
assembly of the `/search` endpoint.

Texts are modelled as `List Char`; Python slices (including negative
indices) are modelled by `pySlice`; the chunking `while` loop is
modelled with explicit fuel so that non-termination of the source loop
is representable (`none` for every fuel); similarity scores (floats in
the source) are modelled as exact rationals, and Python's `round(x, 2)`
as round-half-to-even on rationals.
-/

namespace Synapse

/-- Normalize a Python slice bound for a sequence of length `n`:
negative indices count from the end, and bounds are clamped to `[0, n]`. -/
def pyNorm (n : Nat) (i : Int) : Nat :=
  if i < 0 then (n + i).toNat else min i.toNat n

/-- Python slice `t[a:b]` (step 1) on a list of characters. -/
def pySlice (t : List Char) (a b : Int) : List Char :=
  (t.take (pyNorm t.length b)).drop (pyNorm t.length a)

/-- The `while start < len(text)` loop body of `chunk_text`
(ingest.py lines 116-126 / main.py lines 383-389), with explicit fuel.
Each iteration appends `text[start:start+chunk_size]` and advances the
cursor to `end - overlap`; the loop breaks when the new cursor reaches
the end of the text.  `none` means the fuel ran out, i.e. the source
loop would still be running. -/
def chunkLoop (t : List Char) (size ov : Nat) :
    Nat → Int → List (List Char) → Option (List (List Char))
  | 0, _, _ => none
  | fuel + 1, start, acc =>
    if start < (t.length : Int) then
      let chunk := pySlice t start (start + (size : Int))
      let acc' := acc ++ [chunk]
      let start' := start + (size : Int) - (ov : Int)
      if (t.length : Int) ≤ start' then some acc'
      else chunkLoop t size ov fuel start' acc'
    else some acc

/-- `chunk_text(text, chunk_size, overlap)` from ingest.py lines 108-128
(identical in main.py lines 375-391): a text no longer than
`chunk_size` is returned as a single chunk; otherwise the sliding
window loop runs.  The fuel `t.length + 1` is an upper bound on the
number of iterations whenever the cursor advances by at least one
character per iteration; if the source loop diverges the result is
`none` (and stays `none` for every fuel, as proved below for the
degenerate parameters). -/
def chunk_text (t : List Char) (size ov : Nat) : Option (List (List Char)) :=
  if t.length ≤ size then some [t]
  else chunkLoop t size ov (t.length + 1) 0 []

/-- The window `text[s : s+k]` for a cursor that stayed non-negative. -/
def window (t : List Char) (s k : Nat) : List Char :=
  (t.drop s).take k

/-- Concatenate a chunk list after dropping the first `ov` characters of
every chunk. -/
def joinDrop (ov : Nat) (cs : List (List Char)) : List Char :=
  (cs.map (List.drop ov)).flatten

/-- Concatenate chunks, dropping the first `ov` characters of every chunk
after the first (the reconstruction described by the specification). -/
def reassemble (ov : Nat) : List (List Char) → List Char
  | [] => []
  | c :: rest => c ++ joinDrop ov rest

/-- A non-negative Python slice `t[a : a+k]` is drop-then-take. -/
theorem pySlice_nonneg (t : List Char) (a k : Nat) (ha : a ≤ t.length) :
    pySlice t (a : Int) ((a : Int) + (k : Int)) = (t.drop a).take k := by
  have hna : pyNorm t.length (a : Int) = a := by
    simp only [pyNorm]
    rw [if_neg (by omega)]
    simp [Int.toNat_natCast, Nat.min_eq_left ha]
  have hnb : pyNorm t.length ((a : Int) + (k : Int)) = min (a + k) t.length := by
    simp only [pyNorm]
    rw [if_neg (by omega)]
    norm_cast
  simp only [pySlice, hna, hnb]
  rcases Nat.le_total (a + k) t.length with h | h
  · rw [Nat.min_eq_left h, List.drop_take]
    congr 1
    omega
  · rw [Nat.min_eq_right h, List.take_of_length_le le_rfl,
      List.take_of_length_le (by simp; omega)]

/-- One unfolding of the loop. -/
theorem chunkLoop_succ (t : List Char) (size ov fuel : Nat) (start : Int)
    (acc : List (List Char)) :
    chunkLoop t size ov (fuel + 1) start acc =
      if start < (t.length : Int) then
        if (t.length : Int) ≤ start + (size : Int) - (ov : Int) then
          some (acc ++ [pySlice t start (start + (size : Int))])
        else
          chunkLoop t size ov fuel (start + (size : Int) - (ov : Int))
            (acc ++ [pySlice t start (start + (size : Int))])
      else some acc := rfl

/-- Master specification of the chunking loop for valid parameters
`ov < size`: started at a cursor `start < len(t)` with enough fuel, the
loop terminates, appending exactly the windows
`t[start + i*(size-ov) : start + i*(size-ov) + size]` for every `i`
with `start + i*(size-ov) < len(t)`; dropping the first `ov` characters
of every produced chunk and concatenating yields `t.drop (start + ov)`. -/
theorem chunkLoop_spec (t : List Char) (size ov : Nat) (hov : ov < size) :
    ∀ fuel start : Nat, start < t.length → t.length ≤ start + fuel →
    ∃ res : List (List Char),
      (∀ acc, chunkLoop t size ov fuel (start : Int) acc = some (acc ++ res)) ∧
      (∀ i, i < res.length ↔ start + i * (size - ov) < t.length) ∧
      (∀ i, ∀ hi : i < res.length,
        res.get ⟨i, hi⟩ = window t (start + i * (size - ov)) size) ∧
      joinDrop ov res = t.drop (start + ov) := by
  intro fuel
  induction fuel with
  | zero => intro start h1 h2; omega
  | succ fuel ih =>
    intro start h1 h2
    have hcast : (start : Int) + (size : Int) - (ov : Int)
        = ((start + (size - ov) : Nat) : Int) := by push_cast [le_of_lt hov]; ring
    have hslice : pySlice t (start : Int) ((start : Int) + (size : Int))
        = window t start size := pySlice_nonneg t start size (le_of_lt h1)
    by_cases hend : t.length ≤ start + (size - ov)
    · -- the loop breaks after this iteration
      refine ⟨[window t start size], ?_, ?_, ?_, ?_⟩
      · intro acc
        rw [chunkLoop_succ, if_pos (by exact_mod_cast h1), hcast,
          if_pos (by exact_mod_cast hend), hslice]
      · intro i
        cases i with
        | zero => simpa using h1
        | succ i =>
          have hm : (i + 1) * (size - ov) = i * (size - ov) + (size - ov) := by ring
          simp only [List.length_singleton]
          omega
      · intro i hi
        have h0 : i = 0 := by
          simp only [List.length_singleton] at hi
          omega
        subst h0
        simp
      · show List.drop ov (window t start size) ++ [] = t.drop (start + ov)
        rw [List.append_nil, window, List.drop_take, List.drop_drop,
          List.take_of_length_le (by simp; omega)]
    · -- the loop continues at cursor start + (size - ov)
      push_neg at hend
      obtain ⟨res', hE, hL, hG, hJ⟩ :=
        ih (start + (size - ov)) hend (by omega)
      refine ⟨window t start size :: res', ?_, ?_, ?_, ?_⟩
      · intro acc
        rw [chunkLoop_succ, if_pos (by exact_mod_cast h1), hcast,
          if_neg (by exact_mod_cast not_le.mpr hend), hslice, hE]
        simp
      · intro i
        cases i with
        | zero => simpa using h1
        | succ i =>
          have hm : (i + 1) * (size - ov) = i * (size - ov) + (size - ov) := by ring
          have := hL i
          simp only [List.length_cons]
          omega
      · intro i hi
        cases i with
        | zero => simp
        | succ i =>
          have hm : (i + 1) * (size - ov) = i * (size - ov) + (size - ov) := by ring
          have := hG i (by simpa using hi)
          simp only [List.get_cons_succ]
          rw [this]
          congr 1
          omega
      · show List.drop ov (window t start size) ++ joinDrop ov res' = t.drop (start + ov)
        rw [hJ, window, List.drop_take, List.drop_drop]
        have h1' : start + (size - ov) + ov = start + ov + (size - ov) := by omega
        rw [h1']
        exact List.drop_take_append_drop t (start + ov) (size - ov)

/-- Specification of `chunk_text` for valid parameters `ov < size`:
the call terminates, chunk `i` is the window starting at
`i * (size - ov)`, for `size < len(t)` the chunk count is determined by
which windows start inside the text, and reassembling (dropping the
first `ov` characters of every chunk after the first) restores `t`. -/
theorem chunk_text_spec (t : List Char) (size ov : Nat) (hov : ov < size) :
    ∃ cs : List (List Char),
      chunk_text t size ov = some cs ∧
      0 < cs.length ∧
      (∀ i, ∀ hi : i < cs.length,
        cs.get ⟨i, hi⟩ = window t (i * (size - ov)) size) ∧
      (size < t.length → ∀ i, (i < cs.length ↔ i * (size - ov) < t.length)) ∧
      reassemble ov cs = t := by
  by_cases h : t.length ≤ size
  · refine ⟨[t], ?_, by simp, ?_, fun hc => absurd hc (by omega), ?_⟩
    · simp [chunk_text, h]
    · intro i hi
      have h0 : i = 0 := by
        simp only [List.length_singleton] at hi
        omega
      subst h0
      simp [window, List.take_of_length_le h]
    · simp [reassemble, joinDrop]
  · push_neg at h
    obtain ⟨res, hE, hL, hG, hJ⟩ :=
      chunkLoop_spec t size ov hov (t.length + 1) 0 (by omega) (by omega)
    have hres : chunk_text t size ov = some res := by
      rw [chunk_text, if_neg (by omega)]
      simpa using hE []
    have hpos : 0 < res.length := (hL 0).mpr (by simpa using by omega)
    obtain ⟨c, cs', rfl⟩ := List.exists_cons_of_ne_nil (List.length_pos.mp hpos)
    have hc : c = t.take size := by
      have := hG 0 hpos
      simpa [window] using this
    have hJ' : List.drop ov c ++ joinDrop ov cs' = t.drop ov := by
      simpa [joinDrop] using hJ
    have hdropc : List.drop ov c = (t.drop ov).take (size - ov) := by
      rw [hc, List.drop_take]
    have htail : joinDrop ov cs' = (t.drop ov).drop (size - ov) := by
      have hsplit : (t.drop ov).take (size - ov) ++ joinDrop ov cs'
          = (t.drop ov).take (size - ov) ++ (t.drop ov).drop (size - ov) := by
        rw [List.take_append_drop, ← hdropc, hJ']
      exact List.append_cancel_left hsplit
    refine ⟨c :: cs', hres, hpos, ?_, fun _ => by simpa using hL, ?_⟩
    · intro i hi
      simpa using hG i hi
    · show c ++ joinDrop ov cs' = t
      rw [htail, hc, List.drop_drop]
      have : ov + (size - ov) = size := by omega
      rw [this, List.take_append_drop]

/-- C1.  Chunking round-trip: for every non-empty text and parameters
`0 ≤ overlap < size`, concatenating the chunks of
`chunk_text(text, size, overlap)` while dropping the first `overlap`
characters of every chunk after the first reconstructs the text
exactly (the loop terminates, so the result is `some`). -/
theorem chunk_round_trip (t : List Char) (size ov : Nat)
    (hne : t ≠ []) (hov : ov < size) :
    ∃ cs, chunk_text t size ov = some cs ∧ reassemble ov cs = t := by
  obtain ⟨cs, h1, _, _, _, h5⟩ := chunk_text_spec t size ov hov
  exact ⟨cs, h1, h5⟩

/-- Witness for C1 at a concrete input. -/
theorem chunk_round_trip_witness :
    ("hello world, chunking!".toList ≠ ([] : List Char)) ∧ 2 < 5 ∧
    ∃ cs, chunk_text "hello world, chunking!".toList 5 2 = some cs ∧
      reassemble 2 cs = "hello world, chunking!".toList :=
  ⟨by decide, by decide,
    chunk_round_trip "hello world, chunking!".toList 5 2 (by decide) (by decide)⟩

/-- Counterexample to C2 as stated: with text of length 10, `size = 8`,
`overlap = 5` (valid parameters, `0 ≤ 5 < 8`), the produced chunk
lengths are `[8, 7, 4, 1]`: the chunks at positions 1 and 2 are not
last, yet have lengths 7 and 4, not `size = 8` (and the chunk of
length 4 shares only 1 character with its successor, not 5). -/
theorem chunk_window_length_cex :
    (chunk_text "abcdefghij".toList 8 5).map (fun cs => cs.map List.length)
        = some [8, 7, 4, 1] ∧ (5 < 8) ∧ (7 ≠ 8) :=
  ⟨rfl, by decide, by decide⟩

/-- C2 (amended).  Chunk `i` of `chunk_text(text, size, overlap)` is the
window `text[i*(size-overlap) : i*(size-overlap)+size]`.  A chunk has
length exactly `size` whenever that window lies fully inside the text,
and in that case (when a successor exists) its last `overlap` characters
coincide exactly with the first `overlap` characters of the successor.
A chunk whose window overruns the end of the text can fail to be last
and is then shorter than `size`. -/
theorem chunk_window_length_amended (t : List Char) (size ov : Nat)
    (hov : ov < size) :
    ∃ cs, chunk_text t size ov = some cs ∧
      ∀ i, ∀ hi : i < cs.length,
        cs.get ⟨i, hi⟩ = window t (i * (size - ov)) size ∧
        (i * (size - ov) + size ≤ t.length →
          (cs.get ⟨i, hi⟩).length = size ∧
          ((cs.get ⟨i, hi⟩).drop (size - ov)).length = ov ∧
          ∀ hi2 : i + 1 < cs.length,
            (cs.get ⟨i, hi⟩).drop (size - ov) = (cs.get ⟨i + 1, hi2⟩).take ov) := by
  obtain ⟨cs, h1, _, hG, _, _⟩ := chunk_text_spec t size ov hov
  refine ⟨cs, h1, ?_⟩
  intro i hi
  have hwin := hG i hi
  have hlen : i * (size - ov) + size ≤ t.length → (cs.get ⟨i, hi⟩).length = size := by
    intro hfit
    rw [hwin, window]
    simp only [List.length_take, List.length_drop]
    omega
  refine ⟨hwin, fun hfit => ⟨hlen hfit, ?_, ?_⟩⟩
  · simp only [List.length_drop, hlen hfit]
    omega
  · intro hi2
    rw [hwin, hG (i + 1) hi2, window, window, List.drop_take, List.drop_drop,
      List.take_take]
    have e1 : size - (size - ov) = ov := by omega
    have e2 : min ov size = ov := by omega
    have e3 : i * (size - ov) + (size - ov) = (i + 1) * (size - ov) := by ring
    rw [e1, e2, e3]

/-- Witness for C2 (amended) at a concrete input: text of 10 characters,
`size = 4`, `overlap = 2`; its instantiated conclusion is evaluated. -/
theorem chunk_window_length_amended_witness :
    (2 < 4) ∧
    ∃ cs, chunk_text "abcdefghij".toList 4 2 = some cs ∧
      ∀ i, ∀ hi : i < cs.length,
        cs.get ⟨i, hi⟩ = window "abcdefghij".toList (i * (4 - 2)) 4 ∧
        (i * (4 - 2) + 4 ≤ "abcdefghij".toList.length →
          (cs.get ⟨i, hi⟩).length = 4 ∧
          ((cs.get ⟨i, hi⟩).drop (4 - 2)).length = 2 ∧
          ∀ hi2 : i + 1 < cs.length,
            (cs.get ⟨i, hi⟩).drop (4 - 2) = (cs.get ⟨i + 1, hi2⟩).take 2) :=
  ⟨by decide, chunk_window_length_amended "abcdefghij".toList 4 2 (by decide)⟩

/-- C3: the termination guard is missing.  With `overlap = size` (a
degenerate configuration, `size - overlap = 0`) and `len(text) > size`,
the cursor `start = end - overlap` never advances, the guard
`start >= len(text)` never fires, and the `while` loop of `chunk_text`
runs forever: the loop yields no result no matter how much fuel it is
given.  In particular `chunk_text("ab", 1, 1)` diverges; no
`InvalidChunkParameters` error exists anywhere in the code. -/
theorem chunk_degenerate_nontermination :
    (∀ (t : List Char) (size : Nat), size < t.length →
      ∀ fuel acc, chunkLoop t size size fuel 0 acc = none) ∧
    chunk_text "ab".toList 1 1 = none := by
  have key : ∀ (t : List Char) (size : Nat), size < t.length →
      ∀ fuel acc, chunkLoop t size size fuel 0 acc = none := by
    intro t size hlt fuel
    induction fuel with
    | zero => intro acc; rfl
    | succ fuel ih =>
      intro acc
      rw [chunkLoop_succ, if_pos (by exact_mod_cast by omega),
        if_neg (by omega)]
      have e : (0 : Int) + (size : Int) - (size : Int) = 0 := by ring
      rw [e]
      exact ih _
  refine ⟨key, ?_⟩
  have h2 : ("ab".toList).length = 2 := by decide
  rw [chunk_text, if_neg (by omega)]
  rw [h2]
  exact key "ab".toList 1 (by omega) 3 []

/-- Witness for C3's universally quantified part at concrete input. -/
theorem chunk_degenerate_nontermination_witness :
    chunkLoop "ab".toList 1 1 5 0 [] = none :=
  chunk_degenerate_nontermination.1 "ab".toList 1 (by decide) 5 []

/-! ### Classifier (`categorize_document`, ingest.py lines 131-217,
identical logic in main.py lines 394-450) -/

/-- Python `str.lower()` on a character list. -/
def lowerL (s : List Char) : List Char := s.map Char.toLower

/-- Boolean test that the first list starts the second. -/
def startsWithL : List Char → List Char → Bool
  | [], _ => true
  | _ :: _, [] => false
  | a :: as, b :: bs => a == b && startsWithL as bs

/-- Python substring test `needle in haystack`. -/
def containsSub (needle : List Char) : List Char → Bool
  | [] => startsWithL needle []
  | c :: rest => startsWithL needle (c :: rest) || containsSub needle rest

/-- `f"{filename_lower} {text_lower}"`. -/
def combinedText (text filename : List Char) : List Char :=
  lowerL filename ++ ' ' :: lowerL text

def strategyKeywords : List (List Char) :=
  (["strategy", "strategic", "plan", "planning", "roadmap", "vision",
    "objective", "goal", "mission", "approach", "framework",
    "methodology"]).map String.toList

def contentKeywords : List (List Char) :=
  (["content", "blog", "post", "article", "calendar", "schedule",
    "editorial", "publishing", "social media", "social", "campaign",
    "email", "newsletter", "draft", "writing"]).map String.toList

def reportKeywords : List (List Char) :=
  (["report", "results", "performance", "metrics", "analytics", "data",
    "analysis", "summary", "findings", "insights", "quarterly", "q1",
    "q2", "q3", "q4", "roi", "conversion", "engagement",
    "campaign results"]).map String.toList

def briefKeywords : List (List Char) :=
  (["brief", "briefing", "overview", "summary", "outline", "proposal",
    "project brief", "campaign brief", "creative brief"]).map String.toList

/-- One point per keyword of the list that occurs in the combined text
(presence count, as in the `for keyword in ...: if keyword in combined_text`
loops). -/
def keywordScore (ks : List (List Char)) (s : List Char) : Nat :=
  ks.countP (fun k => containsSub k s)

/-- The `topic_scores` dict: an insertion-ordered association list with
the fixed key order Strategy, Content, Report, Brief. -/
def topicScores (text filename : List Char) : List (String × Nat) :=
  [("Strategy", keywordScore strategyKeywords (combinedText text filename)),
   ("Content", keywordScore contentKeywords (combinedText text filename)),
   ("Report", keywordScore reportKeywords (combinedText text filename)),
   ("Brief", keywordScore briefKeywords (combinedText text filename))]

/-- `max(topic_scores.values())` (all values are naturals). -/
def maxVal (l : List (String × Nat)) : Nat :=
  l.foldl (fun m kv => max m kv.2) 0

/-- The fold behind Python's `max(topic_scores, key=topic_scores.get)`:
a later entry replaces the best one only when strictly greater, so the
first key attaining the maximum wins. -/
def firstMaxVal : List (String × Nat) → (String × Nat) → String × Nat
  | [], best => best
  | kv :: rest, best => firstMaxVal rest (if best.2 < kv.2 then kv else best)

/-- `max(d, key=d.get)` over an insertion-ordered association list. -/
def pyMaxByVal : List (String × Nat) → Option (String × Nat)
  | [] => none
  | kv :: rest => some (firstMaxVal rest kv)

def projectXKeywords : List (List Char) :=
  (["project x", "projectx", "proj x", "projx"]).map String.toList

def projectYKeywords : List (List Char) :=
  (["project y", "projecty", "proj y", "projy"]).map String.toList

/-- Topic selection: highest-scoring category if any score is positive. -/
def topicOf (text filename : List Char) : Option String :=
  if 0 < maxVal (topicScores text filename) then
    (pyMaxByVal (topicScores text filename)).map Prod.fst
  else none

/-- Project selection: ordered keyword checks, first match wins. -/
def projectOf (text filename : List Char) : Option String :=
  if projectXKeywords.any (fun k => containsSub k (combinedText text filename)) then
    some "Project X"
  else if projectYKeywords.any (fun k => containsSub k (combinedText text filename)) then
    some "Project Y"
  else if containsSub "internal".toList (combinedText text filename)
      || containsSub "team".toList (combinedText text filename)
      || containsSub "meeting".toList (combinedText text filename) then
    some "Internal"
  else none

/-- `categorize_document(text, filename)`: the `(topic, project)` pair. -/
def categorize_document (text filename : List Char) :
    Option String × Option String :=
  (topicOf text filename, projectOf text filename)

theorem firstMaxVal_ge : ∀ (l : List (String × Nat)) (best : String × Nat),
    best.2 ≤ (firstMaxVal l best).2 := by
  intro l
  induction l with
  | nil => intro best; exact le_rfl
  | cons kv rest ih =>
    intro best
    simp only [firstMaxVal]
    by_cases h : best.2 < kv.2
    · rw [if_pos h]; exact le_trans (le_of_lt h) (ih kv)
    · rw [if_neg h]; exact ih best

theorem firstMaxVal_mem : ∀ (l : List (String × Nat)) (best : String × Nat),
    firstMaxVal l best ∈ best :: l := by
  intro l
  induction l with
  | nil => intro best; simp [firstMaxVal]
  | cons kv rest ih =>
    intro best
    simp only [firstMaxVal]
    by_cases h : best.2 < kv.2
    · rw [if_pos h]
      have := ih kv
      simp only [List.mem_cons] at this ⊢
      tauto
    · rw [if_neg h]
      have := ih best
      simp only [List.mem_cons] at this ⊢
      tauto

theorem firstMaxVal_is_max : ∀ (l : List (String × Nat)) (best kv : String × Nat),
    kv ∈ best :: l → kv.2 ≤ (firstMaxVal l best).2 := by
  intro l
  induction l with
  | nil =>
    intro best kv hm
    simp only [List.mem_cons, List.not_mem_nil, or_false] at hm
    subst hm; exact le_rfl
  | cons p rest ih =>
    intro best kv hm
    simp only [firstMaxVal]
    by_cases h : best.2 < p.2
    · rw [if_pos h]
      rcases List.mem_cons.mp hm with h1 | h1
      · subst h1
        exact le_trans (le_of_lt h) (firstMaxVal_ge rest p)
      · exact ih p kv h1
    · rw [if_neg h]
      rcases List.mem_cons.mp hm with h1 | h1
      · rw [h1]; exact firstMaxVal_ge rest best
      · rcases List.mem_cons.mp h1 with h2 | h2
        · subst h2
          exact le_trans (not_lt.mp h) (firstMaxVal_ge rest best)
        · exact ih best kv (List.mem_cons_of_mem best h2)

theorem find?_congr_mem {α : Type} : ∀ (l : List α) (p q : α → Bool),
    (∀ x ∈ l, p x = q x) → l.find? p = l.find? q := by
  intro l
  induction l with
  | nil => intro p q _; rfl
  | cons a as ih =>
    intro p q h
    have ha := h a (List.mem_cons_self a as)
    by_cases hp : p a = true
    · rw [List.find?_cons_of_pos as hp, List.find?_cons_of_pos as (ha ▸ hp)]
    · rw [List.find?_cons_of_neg as hp, List.find?_cons_of_neg as (ha ▸ hp)]
      exact ih p q (fun x hx => h x (List.mem_cons_of_mem a hx))

/-- `firstMaxVal` returns the first entry of `best :: l` whose value
reaches the maximum. -/
theorem firstMaxVal_find : ∀ (l : List (String × Nat)) (best : String × Nat),
    (best :: l).find? (fun kv => decide ((firstMaxVal l best).2 ≤ kv.2))
      = some (firstMaxVal l best) := by
  intro l
  induction l with
  | nil =>
    intro best
    simp [firstMaxVal]
  | cons kv rest ih =>
    intro best
    by_cases h : best.2 < kv.2
    · have hr : firstMaxVal (kv :: rest) best = firstMaxVal rest kv := by
        simp [firstMaxVal, if_pos h]
      rw [hr]
      have hge := firstMaxVal_ge rest kv
      rw [List.find?_cons_of_neg _ (by simp; omega)]
      exact ih kv
    · have hr : firstMaxVal (kv :: rest) best = firstMaxVal rest best := by
        simp [firstMaxVal, if_neg h]
      rw [hr]
      push_neg at h
      by_cases h2 : (firstMaxVal rest best).2 ≤ best.2
      · have heq : (firstMaxVal rest best).2 = best.2 :=
          le_antisymm h2 (firstMaxVal_ge rest best)
        have hI := ih best
        rw [List.find?_cons_of_pos _ (by simp [heq])] at hI
        rw [List.find?_cons_of_pos _ (by simp [heq])]
        exact hI
      · push_neg at h2
        have hI := ih best
        rw [List.find?_cons_of_neg _ (by simp; omega)] at hI
        rw [List.find?_cons_of_neg _ (by simp; omega),
          List.find?_cons_of_neg _ (by simp; omega)]
        exact hI

theorem firstMaxVal_val : ∀ (l : List (String × Nat)) (best : String × Nat),
    (firstMaxVal l best).2 = l.foldl (fun m kv => max m kv.2) best.2 := by
  intro l
  induction l with
  | nil => intro best; rfl
  | cons kv rest ih =>
    intro best
    simp only [firstMaxVal, List.foldl_cons]
    rw [ih]
    congr 1
    by_cases h : best.2 < kv.2
    · rw [if_pos h]; omega
    · rw [if_neg h]; omega

theorem maxVal_cons (best : String × Nat) (l : List (String × Nat)) :
    maxVal (best :: l) = l.foldl (fun m kv => max m kv.2) best.2 := by
  simp only [maxVal, List.foldl_cons, Nat.zero_max]

/-- `max(d, key=d.get)` equals the first entry whose value attains
`max(d.values())`. -/
theorem pyMaxByVal_find (best : String × Nat) (l : List (String × Nat)) :
    pyMaxByVal (best :: l) =
      (best :: l).find? (fun kv => decide (kv.2 = maxVal (best :: l))) := by
  have hval : (firstMaxVal l best).2 = maxVal (best :: l) := by
    rw [firstMaxVal_val, maxVal_cons]
  have hcong : (best :: l).find? (fun kv => decide (kv.2 = maxVal (best :: l)))
      = (best :: l).find? (fun kv => decide ((firstMaxVal l best).2 ≤ kv.2)) := by
    apply find?_congr_mem
    intro x hx
    have h1 := firstMaxVal_is_max l best x hx
    rw [decide_eq_decide, hval]
    rw [hval] at h1
    omega
  rw [hcong, firstMaxVal_find]
  rfl

set_option maxHeartbeats 1000000 in
/-- C5.  Classifier tie-break: whenever two distinct categories tie for
the strictly positive maximum keyword score, `categorize_document`
returns as topic the first entry of the fixed ordered category list
Strategy, Content, Report, Brief whose score attains the maximum (in
particular the tying category that appears first); when the maximum
score is zero the topic is absent. -/
theorem classifier_tie_break (text filename : List Char) :
    ((∃ p q, p ∈ topicScores text filename ∧ q ∈ topicScores text filename ∧
        p.1 ≠ q.1 ∧ p.2 = maxVal (topicScores text filename) ∧
        q.2 = maxVal (topicScores text filename) ∧
        0 < maxVal (topicScores text filename)) →
      (categorize_document text filename).1 =
        ((topicScores text filename).find?
          (fun kv => decide (kv.2 = maxVal (topicScores text filename)))).map
            Prod.fst) ∧
    (maxVal (topicScores text filename) = 0 →
      (categorize_document text filename).1 = none) := by
  have hsc : topicScores text filename =
      ("Strategy", keywordScore strategyKeywords (combinedText text filename)) ::
      [("Content", keywordScore contentKeywords (combinedText text filename)),
       ("Report", keywordScore reportKeywords (combinedText text filename)),
       ("Brief", keywordScore briefKeywords (combinedText text filename))] := rfl
  constructor
  · rintro ⟨p, q, _, _, _, _, _, hpos⟩
    show topicOf text filename = _
    rw [topicOf, if_pos hpos]
    congr 1
    rw [hsc]
    exact pyMaxByVal_find _ _
  · intro h0
    show topicOf text filename = none
    rw [topicOf, if_neg (by omega)]

set_option maxHeartbeats 2000000 in
/-- Witness for C5: the text "strategy blog" scores 1 for Strategy and
1 for Content (a positive two-way tie) and the topic is resolved to the
find?-first entry of the ordered list, namely Strategy. -/
theorem classifier_tie_break_witness :
    (∃ p q, p ∈ topicScores "strategy blog".toList ([] : List Char) ∧
      q ∈ topicScores "strategy blog".toList ([] : List Char) ∧
      p.1 ≠ q.1 ∧ p.2 = maxVal (topicScores "strategy blog".toList []) ∧
      q.2 = maxVal (topicScores "strategy blog".toList []) ∧
      0 < maxVal (topicScores "strategy blog".toList [])) ∧
    (categorize_document "strategy blog".toList []).1 =
      ((topicScores "strategy blog".toList []).find?
        (fun kv => decide (kv.2 = maxVal (topicScores "strategy blog".toList [])))).map
          Prod.fst :=
  ⟨⟨("Strategy", 1), ("Content", 1), by decide, by decide, by decide,
      by decide, by decide, by decide⟩,
    (classifier_tie_break "strategy blog".toList []).1
      ⟨("Strategy", 1), ("Content", 1), by decide, by decide, by decide,
        by decide, by decide, by decide⟩⟩

/-- C9.  Classifier output domain: the topic is absent or one of
Strategy, Content, Report, Brief; the project is absent or one of
"Project X", "Project Y", "Internal".  No other values occur. -/
theorem classifier_output_domain (text filename : List Char) :
    (categorize_document text filename).1 ∈
      [none, some "Strategy", some "Content", some "Report", some "Brief"] ∧
    (categorize_document text filename).2 ∈
      [none, some "Project X", some "Project Y", some "Internal"] := by
  constructor
  · show topicOf text filename ∈ _
    rw [topicOf]
    by_cases h : 0 < maxVal (topicScores text filename)
    · rw [if_pos h]
      have hmem := firstMaxVal_mem
        [("Content", keywordScore contentKeywords (combinedText text filename)),
         ("Report", keywordScore reportKeywords (combinedText text filename)),
         ("Brief", keywordScore briefKeywords (combinedText text filename))]
        ("Strategy", keywordScore strategyKeywords (combinedText text filename))
      have hpy : pyMaxByVal (topicScores text filename) =
          some (firstMaxVal
            [("Content", keywordScore contentKeywords (combinedText text filename)),
             ("Report", keywordScore reportKeywords (combinedText text filename)),
             ("Brief", keywordScore briefKeywords (combinedText text filename))]
            ("Strategy", keywordScore strategyKeywords (combinedText text filename))) := rfl
      rw [hpy]
      simp only [List.mem_cons, List.not_mem_nil, or_false] at hmem
      rcases hmem with h1 | h1 | h1 | h1 <;>
        simp [h1]
    · rw [if_neg h]
      simp
  · show projectOf text filename ∈ _
    rw [projectOf]
    by_cases h1 : projectXKeywords.any
        (fun k => containsSub k (combinedText text filename)) = true
    · rw [if_pos h1]; simp
    · rw [if_neg h1]
      by_cases h2 : projectYKeywords.any
          (fun k => containsSub k (combinedText text filename)) = true
      · rw [if_pos h2]; simp
      · rw [if_neg h2]
        by_cases h3 : (containsSub "internal".toList (combinedText text filename)
            || containsSub "team".toList (combinedText text filename)
            || containsSub "meeting".toList (combinedText text filename)) = true
        · rw [if_pos h3]; simp
        · rw [if_neg h3]; simp

/-! ### Text extraction dispatch (`extract_text`): ingest.py lines 47-105
and main.py lines 319-372.  The raw parser call is external I/O and is
modelled as an `Except String String` argument (extracted text, or the
message of the exception the parser raised). -/

/-- Python `str.lower()` on a `String` (character-wise lowering). -/
def lowerS (s : String) : String := String.mk (lowerL s.data)

/-- ingest.py's per-format handlers catch every parser exception, print
a message, and return the empty string. -/
def extract_handler_ingest (r : Except String String) : String :=
  match r with
  | .ok t => t
  | .error _ => ""

/-- main.py's per-format handlers re-raise parser failures as
`ValueError("Error reading <FMT>: <cause>")`. -/
def extract_handler_main (tag : String) (r : Except String String) :
    Except String String :=
  match r with
  | .ok t => .ok t
  | .error e => .error ("Error reading " ++ tag ++ ": " ++ e)

/-- `extract_text` of ingest.py: dispatch on the lower-cased extension;
unsupported extensions print a message and return the empty string. -/
def extract_text_ingest (suffix : String)
    (pdf docx txt md : Except String String) : String :=
  if lowerS suffix = ".pdf" then extract_handler_ingest pdf
  else if lowerS suffix = ".docx" then extract_handler_ingest docx
  else if lowerS suffix = ".txt" then extract_handler_ingest txt
  else if lowerS suffix = ".md" then extract_handler_ingest md
  else ""

/-- `extract_text` of main.py: dispatch on the lower-cased extension;
unsupported extensions raise `ValueError("Unsupported file type: ...")`. -/
def extract_text_main (suffix : String)
    (pdf docx txt md : Except String String) : Except String String :=
  if lowerS suffix = ".pdf" then extract_handler_main "PDF" pdf
  else if lowerS suffix = ".docx" then extract_handler_main "DOCX" docx
  else if lowerS suffix = ".txt" then extract_handler_main "TXT" txt
  else if lowerS suffix = ".md" then extract_handler_main "MD" md
  else .error ("Unsupported file type: " ++ lowerS suffix)

/-- Counterexample to C7 as stated: ingest.py's `extract_text` does not
fail on an unsupported extension and does not report parser failures —
it returns the empty string as an ordinary result in both cases (its
return type has no error channel at all). -/
theorem unsupported_format_cex :
    extract_text_ingest ".xlsx" (.ok "cells") (.ok "a") (.ok "b") (.ok "c")
        = "" ∧
    extract_text_ingest ".pdf" (.error "corrupt stream") (.ok "a") (.ok "b")
        (.ok "c") = "" :=
  ⟨by decide, by decide⟩

/-- C7 (amended).  main.py's `extract_text` fails with
`ValueError("Unsupported file type: <ext>")` on any extension whose
lower-cased form is outside {.pdf, .docx, .txt, .md}, and on each of
the four supported extensions re-raises a parser failure as a
`ValueError` naming the format and carrying the underlying cause;
ingest.py's `extract_text` instead returns the empty string in every
one of these situations (the empty result is then treated by its
caller `ingest_document` as "no text extracted"). -/
theorem unsupported_format_amended (suffix : String)
    (pdf docx txt md : Except String String)
    (h : lowerS suffix ∉ ([".pdf", ".docx", ".txt", ".md"] : List String)) :
    (extract_text_main suffix pdf docx txt md =
      .error ("Unsupported file type: " ++ lowerS suffix) ∧
    extract_text_ingest suffix pdf docx txt md = "") ∧
    (∀ e, extract_text_main ".pdf" (.error e) docx txt md =
        .error ("Error reading PDF: " ++ e) ∧
      extract_text_ingest ".pdf" (.error e) docx txt md = "") ∧
    (∀ e, extract_text_main ".docx" pdf (.error e) txt md =
        .error ("Error reading DOCX: " ++ e) ∧
      extract_text_ingest ".docx" pdf (.error e) txt md = "") ∧
    (∀ e, extract_text_main ".txt" pdf docx (.error e) md =
        .error ("Error reading TXT: " ++ e) ∧
      extract_text_ingest ".txt" pdf docx (.error e) md = "") ∧
    (∀ e, extract_text_main ".md" pdf docx txt (.error e) =
        .error ("Error reading MD: " ++ e) ∧
      extract_text_ingest ".md" pdf docx txt (.error e) = "") := by
  simp only [List.mem_cons, List.not_mem_nil, or_false, not_or] at h
  obtain ⟨h1, h2, h3, h4⟩ := h
  refine ⟨⟨?_, ?_⟩, fun e => ⟨?_, ?_⟩, fun e => ⟨?_, ?_⟩,
    fun e => ⟨?_, ?_⟩, fun e => ⟨?_, ?_⟩⟩
  · rw [extract_text_main, if_neg h1, if_neg h2, if_neg h3, if_neg h4]
  · rw [extract_text_ingest, if_neg h1, if_neg h2, if_neg h3, if_neg h4]
  · rw [extract_text_main, if_pos (by decide)]
    rfl
  · rw [extract_text_ingest, if_pos (by decide)]
    rfl
  · rw [extract_text_main, if_neg (by decide), if_pos (by decide)]
    rfl
  · rw [extract_text_ingest, if_neg (by decide), if_pos (by decide)]
    rfl
  · rw [extract_text_main, if_neg (by decide), if_neg (by decide),
      if_pos (by decide)]
    rfl
  · rw [extract_text_ingest, if_neg (by decide), if_neg (by decide),
      if_pos (by decide)]
    rfl
  · rw [extract_text_main, if_neg (by decide), if_neg (by decide),
      if_neg (by decide), if_pos (by decide)]
    rfl
  · rw [extract_text_ingest, if_neg (by decide), if_neg (by decide),
      if_neg (by decide), if_pos (by decide)]
    rfl

/-- Witness for C7 (amended) at the concrete extension ".xlsx", with
the four parser-failure conjuncts instantiated over the same concrete
handlers. -/
theorem unsupported_format_amended_witness :
    (lowerS ".xlsx" ∉ ([".pdf", ".docx", ".txt", ".md"] : List String)) ∧
    ((extract_text_main ".xlsx" (.ok "w") (.ok "x") (.ok "y") (.ok "z") =
      .error ("Unsupported file type: " ++ lowerS ".xlsx") ∧
    extract_text_ingest ".xlsx" (.ok "w") (.ok "x") (.ok "y") (.ok "z")
      = "") ∧
    (∀ e, extract_text_main ".pdf" (.error e) (.ok "x") (.ok "y") (.ok "z") =
        .error ("Error reading PDF: " ++ e) ∧
      extract_text_ingest ".pdf" (.error e) (.ok "x") (.ok "y") (.ok "z")
        = "") ∧
    (∀ e, extract_text_main ".docx" (.ok "w") (.error e) (.ok "y") (.ok "z") =
        .error ("Error reading DOCX: " ++ e) ∧
      extract_text_ingest ".docx" (.ok "w") (.error e) (.ok "y") (.ok "z")
        = "") ∧
    (∀ e, extract_text_main ".txt" (.ok "w") (.ok "x") (.error e) (.ok "z") =
        .error ("Error reading TXT: " ++ e) ∧
      extract_text_ingest ".txt" (.ok "w") (.ok "x") (.error e) (.ok "z")
        = "") ∧
    (∀ e, extract_text_main ".md" (.ok "w") (.ok "x") (.ok "y") (.error e) =
        .error ("Error reading MD: " ++ e) ∧
      extract_text_ingest ".md" (.ok "w") (.ok "x") (.ok "y") (.error e)
        = "")) :=
  ⟨by decide,
    unsupported_format_amended ".xlsx" (.ok "w") (.ok "x") (.ok "y") (.ok "z")
      (by decide)⟩

/-! ### Search result assembly (`/search` endpoint, main.py lines
119-242).  The query embedding and the database RPC are external;
the assembly receives the candidate rows (`response.data`) already
filtered and ranked by the database.  Similarities (floats in the
source) are modelled as exact rationals. -/

/-- Round half to even (the rounding of Python's `round`), to an
integer. -/
def roundHalfEven (q : ℚ) : ℤ :=
  if q - (⌊q⌋ : ℚ) < 1 / 2 then ⌊q⌋
  else if 1 / 2 < q - (⌊q⌋ : ℚ) then ⌊q⌋ + 1
  else if ⌊q⌋ % 2 = 0 then ⌊q⌋ else ⌊q⌋ + 1

/-- Python `round(q, 2)`. -/
def pyRound2 (q : ℚ) : ℚ := (roundHalfEven (q * 100) : ℚ) / 100

/-- One candidate row as returned by the `match_documents_v2` RPC. -/
structure Candidate where
  id : String
  content : String
  source : String
  similarity : ℚ
  topic : Option String
  project : Option String
deriving DecidableEq

/-- The `SearchResult` response model (one formatted chunk). -/
structure SearchResultM where
  id : String
  content : String
  source : String
  file_name : String
  similarity : ℚ
  topic : Option String
  project : Option String
deriving DecidableEq

/-- Formatting of one candidate row into a `SearchResult`
(main.py lines 163-175): the similarity is converted to a percentage
rounded to two decimals, `file_name` duplicates `source`. -/
def fmtResult (c : Candidate) : SearchResultM :=
  { id := c.id, content := c.content, source := c.source,
    file_name := c.source, similarity := pyRound2 (c.similarity * 100),
    topic := c.topic, project := c.project }

/-- One entry of the insertion-ordered `files_dict`
(main.py lines 178-203): accumulated chunks, the topic/project of the
first candidate of the file, and the raw (pre-rounding) best
similarity. -/
structure GroupAcc where
  src : String
  chunks : List SearchResultM
  topic : Option String
  project : Option String
  best : ℚ
deriving DecidableEq

/-- Processing one candidate row of the grouping loop: a new file gets
a fresh dict entry (with `best_similarity` initialised to the row's raw
similarity); an existing file gets the chunk appended and its best
similarity raised when the row's raw similarity is strictly greater. -/
def addCand : List GroupAcc → Candidate → List GroupAcc
  | [], c =>
    [{ src := c.source, chunks := [fmtResult c], topic := c.topic,
       project := c.project, best := c.similarity }]
  | g :: gs, c =>
    if g.src = c.source then
      { g with chunks := g.chunks ++ [fmtResult c],
               best := if g.best < c.similarity then c.similarity else g.best } :: gs
    else g :: addCand gs c

/-- The `files_dict` after the grouping loop, in insertion
(first-appearance) order. -/
def groupsOf (cands : List Candidate) : List GroupAcc :=
  cands.foldl addCand []

/-- The strict order used to model Python's stable descending sort:
strictly larger key first, equal keys ordered by original position. -/
def keyOrd {α : Type} (key : α → ℚ) (p q : Nat × α) : Prop :=
  key q.2 < key p.2 ∨ (key p.2 = key q.2 ∧ p.1 < q.1)

instance keyOrdDec {α : Type} (key : α → ℚ) (p q : Nat × α) :
    Decidable (keyOrd key p q) :=
  inferInstanceAs (Decidable (_ ∨ _))

/-- Insertion into a position-decorated sorted list. -/
def insDesc {α : Type} (key : α → ℚ) (p : Nat × α) :
    List (Nat × α) → List (Nat × α)
  | [] => [p]
  | q :: qs => if keyOrd key p q then p :: q :: qs else q :: insDesc key p qs

/-- Python `sorted(l, key=key, reverse=True)`: a stable descending
sort, modelled as the unique permutation sorted by strictly-descending
key with original positions breaking ties. -/
def pySortDesc {α : Type} (key : α → ℚ) (l : List α) : List α :=
  (l.enum.foldr (insDesc key) []).map Prod.snd

/-- The `FileResult` response model (one file group). -/
structure FileResultM where
  file_name : String
  file_path : String
  chunks : List SearchResultM
  best_similarity : ℚ
  topic : Option String
  project : Option String
deriving DecidableEq

/-- Building one `FileResult` (main.py lines 206-214): chunks sorted by
their (rounded) similarity percentage descending, best similarity
converted to a rounded percentage. -/
def finalizeGroup (g : GroupAcc) : FileResultM :=
  { file_name := g.src, file_path := "demo_documents/" ++ g.src,
    chunks := pySortDesc (fun ch => ch.similarity) g.chunks,
    best_similarity := pyRound2 (g.best * 100),
    topic := g.topic, project := g.project }

/-- The fields of `SearchRequest` (main.py lines 72-77). -/
structure SearchRequestM where
  query : String
  match_threshold : ℚ
  match_count : Nat
  topic : Option String
  project : Option String

/-- The `SearchResponse` model (main.py lines 101-106). -/
structure SearchResponseM where
  results : List SearchResultM
  files : List FileResultM
  query : String
  total_results : Nat
  total_files : Nat

/-- The pure assembly performed by the `/search` endpoint once the RPC
has returned the candidate rows (main.py lines 157-230): format every
row, group by source file in first-appearance order, sort the groups by
raw best similarity descending (Python's `sorted` is stable), and
report the counts.  `match_threshold`, `match_count` and the filters of
the request are passed to the database RPC and play no further role. -/
def searchAssemble (req : SearchRequestM) (cands : List Candidate) :
    SearchResponseM :=
  let results := cands.map fmtResult
  let files := (pySortDesc (fun g => g.best) (groupsOf cands)).map finalizeGroup
  { results := results, files := files, query := req.query,
    total_results := results.length, total_files := files.length }

/-- Counterexample to C4 as stated: with 20 candidate rows and
`match_count = 5`, the flat result list has 20 entries, not 5 — the
assembly performs no truncation (`match_count` is only forwarded to the
database RPC). -/
theorem assembler_truncation_cex :
    (searchAssemble
      { query := "q", match_threshold := 1 / 10, match_count := 5,
        topic := none, project := none }
      ((List.range 20).map (fun i =>
        { id := toString i, content := "c", source := "s",
          similarity := 1 / 2, topic := none,
          project := none }))).results.length = 20 ∧ (20 ≠ 5) := by
  constructor
  · simp [searchAssemble]
  · decide

/-- C4 (amended).  The assembly truncates nothing: for every request
and candidate list the flat ranked list contains exactly one formatted
entry per candidate, in the candidates' (upstream ranking) order, and
`total_results` counts them; limiting to `requested_count` entries is
delegated to the database call via the `match_count` RPC parameter. -/
theorem assembler_truncation_amended (req : SearchRequestM)
    (cands : List Candidate) :
    (searchAssemble req cands).results = cands.map fmtResult ∧
    (searchAssemble req cands).results.length = cands.length ∧
    (searchAssemble req cands).total_results = cands.length := by
  refine ⟨rfl, ?_, ?_⟩ <;>
    simp [searchAssemble]

theorem keyOrd_trans {α : Type} (key : α → ℚ) {a b c : Nat × α}
    (h1 : keyOrd key a b) (h2 : keyOrd key b c) : keyOrd key a c := by
  rcases h1 with h1 | ⟨h1e, h1i⟩ <;> rcases h2 with h2 | ⟨h2e, h2i⟩
  · exact Or.inl (lt_trans h2 h1)
  · exact Or.inl (h2e ▸ h1)
  · exact Or.inl (h1e ▸ h2)
  · exact Or.inr ⟨h1e.trans h2e, lt_trans h1i h2i⟩

theorem insDesc_perm {α : Type} (key : α → ℚ) (p : Nat × α) :
    ∀ l : List (Nat × α), (insDesc key p l).Perm (p :: l) := by
  intro l
  induction l with
  | nil => simp [insDesc]
  | cons q qs ih =>
    rw [insDesc]
    by_cases h : keyOrd key p q
    · rw [if_pos h]
    · rw [if_neg h]
      exact (ih.cons q).trans (List.Perm.swap p q qs)

theorem insDesc_pairwise {α : Type} (key : α → ℚ) (p : Nat × α) :
    ∀ l : List (Nat × α), l.Pairwise (keyOrd key) → (∀ q ∈ l, p.1 < q.1) →
    (insDesc key p l).Pairwise (keyOrd key) := by
  intro l
  induction l with
  | nil => intro _ _; simp [insDesc]
  | cons q qs ih =>
    intro hs hidx
    rcases List.pairwise_cons.mp hs with ⟨hq, hqs⟩
    rw [insDesc]
    by_cases h : keyOrd key p q
    · rw [if_pos h]
      refine List.pairwise_cons.mpr ⟨?_, hs⟩
      intro x hx
      rcases List.mem_cons.mp hx with rfl | hx
      · exact h
      · exact keyOrd_trans key h (hq x hx)
    · rw [if_neg h]
      refine List.pairwise_cons.mpr
        ⟨?_, ih hqs (fun r hr => hidx r (List.mem_cons_of_mem q hr))⟩
      intro x hx
      have hx' := (insDesc_perm key p qs).mem_iff.mp hx
      rcases List.mem_cons.mp hx' with rfl | hx'
      · have hpq : x.1 < q.1 := hidx q (List.mem_cons_self q qs)
        rw [keyOrd] at h
        push_neg at h
        rcases lt_trichotomy (key q.2) (key x.2) with hlt | heq | hgt
        · exact absurd h.1 (not_le.mpr hlt)
        · exact absurd (h.2 heq.symm) (not_le.mpr hpq)
        · exact Or.inl hgt
      · exact hq x hx'

theorem foldr_insDesc_perm {α : Type} (key : α → ℚ) :
    ∀ l : List (Nat × α), (l.foldr (insDesc key) []).Perm l := by
  intro l
  induction l with
  | nil => simp
  | cons p rest ih =>
    exact (insDesc_perm key p (rest.foldr (insDesc key) [])).trans (ih.cons p)

theorem foldr_insDesc_pairwise {α : Type} (key : α → ℚ) :
    ∀ l : List (Nat × α), l.Pairwise (fun a b => a.1 < b.1) →
    (l.foldr (insDesc key) []).Pairwise (keyOrd key) := by
  intro l
  induction l with
  | nil => intro _; simp
  | cons p rest ih =>
    intro hs
    rcases List.pairwise_cons.mp hs with ⟨hp, hrest⟩
    refine insDesc_pairwise key p _ (ih hrest) ?_
    intro q hq
    exact hp q ((foldr_insDesc_perm key rest).mem_iff.mp hq)

theorem insDesc_filter {α : Type} (key : α → ℚ) (v : ℚ) (p : Nat × α) :
    ∀ s : List (Nat × α), (∀ q ∈ s, p.1 < q.1) →
    (insDesc key p s).filter (fun q => decide (key q.2 = v)) =
      if key p.2 = v then
        p :: s.filter (fun q => decide (key q.2 = v))
      else s.filter (fun q => decide (key q.2 = v)) := by
  intro s
  induction s with
  | nil =>
    intro _
    by_cases hv : key p.2 = v
    · rw [if_pos hv]
      simp [insDesc, List.filter_cons, hv]
    · rw [if_neg hv]
      simp [insDesc, List.filter_cons, hv]
  | cons q qs ih =>
    intro hidx
    rw [insDesc]
    by_cases h : keyOrd key p q
    · rw [if_pos h]
      by_cases hv : key p.2 = v
      · rw [if_pos hv, List.filter_cons_of_pos (by simp [hv])]
      · rw [if_neg hv, List.filter_cons_of_neg (by simp [hv])]
    · rw [if_neg h]
      have hpq : p.1 < q.1 := hidx q (List.mem_cons_self q qs)
      have ihq := ih (fun r hr => hidx r (List.mem_cons_of_mem q hr))
      by_cases hv : key p.2 = v
      · have hqv : ¬ (key q.2 = v) := by
          intro hq2
          exact h (Or.inr ⟨hv.trans hq2.symm, hpq⟩)
        rw [if_pos hv, List.filter_cons_of_neg (by simp [hqv]),
          List.filter_cons_of_neg (by simp [hqv]), ihq, if_pos hv]
      · rw [if_neg hv, List.filter_cons, List.filter_cons, ihq, if_neg hv]

theorem foldr_insDesc_filter {α : Type} (key : α → ℚ) (v : ℚ) :
    ∀ l : List (Nat × α), l.Pairwise (fun a b => a.1 < b.1) →
    (l.foldr (insDesc key) []).filter (fun q => decide (key q.2 = v)) =
      l.filter (fun q => decide (key q.2 = v)) := by
  intro l
  induction l with
  | nil => intro _; rfl
  | cons p rest ih =>
    intro hs
    rcases List.pairwise_cons.mp hs with ⟨hp, hrest⟩
    have hins := insDesc_filter key v p (rest.foldr (insDesc key) [])
      (fun q hq => hp q ((foldr_insDesc_perm key rest).mem_iff.mp hq))
    show (insDesc key p (rest.foldr (insDesc key) [])).filter _ = _
    rw [hins, ih hrest, List.filter_cons]
    by_cases hv : key p.2 = v
    · rw [if_pos hv, if_pos (by simp [hv])]
    · rw [if_neg hv, if_neg (by simp [hv])]

theorem enumFrom_pairwise_fst {α : Type} :
    ∀ (l : List α) (k : Nat),
    (l.enumFrom k).Pairwise (fun a b => a.1 < b.1) := by
  intro l
  induction l with
  | nil => intro k; simp
  | cons a rest ih =>
    intro k
    rw [List.enumFrom_cons]
    refine List.pairwise_cons.mpr ⟨?_, ih (k + 1)⟩
    intro q hq
    have := List.le_fst_of_mem_enumFrom hq
    show k < q.1
    omega

theorem filterMapSnd {α : Type} (P : α → Bool) :
    ∀ m : List (Nat × α),
    (m.map Prod.snd).filter P = (m.filter (fun q => P q.2)).map Prod.snd := by
  intro m
  induction m with
  | nil => rfl
  | cons q qs ih =>
    simp only [List.map_cons, List.filter_cons]
    by_cases h : P q.2 = true
    · rw [if_pos h, if_pos h, List.map_cons, ih]
    · rw [if_neg h, if_neg h, ih]

theorem enumFromFilterSnd {α : Type} (P : α → Bool) :
    ∀ (l : List α) (k : Nat),
    ((l.enumFrom k).filter (fun q => P q.2)).map Prod.snd = l.filter P := by
  intro l
  induction l with
  | nil => intro k; rfl
  | cons a rest ih =>
    intro k
    rw [List.enumFrom_cons, List.filter_cons, List.filter_cons]
    by_cases h : P a = true
    · rw [if_pos h, if_pos h, List.map_cons, ih]
    · rw [if_neg h, if_neg h, ih]

/-- `pySortDesc` returns a permutation of its input. -/
theorem pySortDesc_perm {α : Type} (key : α → ℚ) (l : List α) :
    (pySortDesc key l).Perm l := by
  have h2 := (foldr_insDesc_perm key l.enum).map Prod.snd
  rw [List.enum_map_snd] at h2
  exact h2

/-- `pySortDesc` output is non-increasing in the key. -/
theorem pySortDesc_sorted {α : Type} (key : α → ℚ) (l : List α) :
    (pySortDesc key l).Pairwise (fun a b => key b ≤ key a) := by
  have hp := foldr_insDesc_pairwise key l.enum (enumFrom_pairwise_fst l 0)
  refine hp.map Prod.snd ?_
  intro a b hab
  rcases hab with h | ⟨h, _⟩
  · exact le_of_lt h
  · exact le_of_eq h.symm

/-- Stability of `pySortDesc`: restricted to any fixed key value, the
output lists the elements in their original order. -/
theorem pySortDesc_stable {α : Type} (key : α → ℚ) (l : List α) (v : ℚ) :
    (pySortDesc key l).filter (fun a => decide (key a = v)) =
      l.filter (fun a => decide (key a = v)) := by
  show ((l.enum.foldr (insDesc key) []).map Prod.snd).filter _ = _
  rw [filterMapSnd, foldr_insDesc_filter key v l.enum (enumFrom_pairwise_fst l 0)]
  exact enumFromFilterSnd (fun a => decide (key a = v)) l 0

theorem roundHalfEven_ge (q : ℚ) : ⌊q⌋ ≤ roundHalfEven q := by
  rw [roundHalfEven]
  split_ifs <;> omega

theorem roundHalfEven_le (q : ℚ) : roundHalfEven q ≤ ⌊q⌋ + 1 := by
  rw [roundHalfEven]
  split_ifs <;> omega

/-- Round-half-to-even is monotone. -/
theorem roundHalfEven_mono {y z : ℚ} (h : y ≤ z) :
    roundHalfEven y ≤ roundHalfEven z := by
  have hle : ⌊y⌋ ≤ ⌊z⌋ := Int.floor_le_floor h
  rcases lt_or_eq_of_le hle with hlt | heq
  · have h1 := roundHalfEven_le y
    have h2 := roundHalfEven_ge z
    omega
  · rw [roundHalfEven, roundHalfEven, ← heq]
    have hfr : y - (⌊y⌋ : ℚ) ≤ z - (⌊y⌋ : ℚ) := by linarith
    split_ifs <;> first | omega | linarith

/-- `round(q, 2)` is monotone. -/
theorem pyRound2_mono {y z : ℚ} (h : y ≤ z) : pyRound2 y ≤ pyRound2 z := by
  rw [pyRound2, pyRound2]
  have h1 : y * 100 ≤ z * 100 := by linarith
  have h2 : ((roundHalfEven (y * 100) : ℚ)) ≤ (roundHalfEven (z * 100) : ℚ) := by
    exact_mod_cast roundHalfEven_mono h1
  linarith

theorem addCand_srcs (c : Candidate) :
    ∀ acc : List GroupAcc,
    (addCand acc c).map (fun g => g.src) =
      if c.source ∈ acc.map (fun g => g.src) then acc.map (fun g => g.src)
      else acc.map (fun g => g.src) ++ [c.source] := by
  intro acc
  induction acc with
  | nil => simp [addCand]
  | cons g gs ih =>
    rw [addCand]
    by_cases h : g.src = c.source
    · rw [if_pos h]
      have hmem : c.source ∈ (g :: gs).map (fun g => g.src) := by
        simp [h.symm]
      rw [if_pos hmem]
      simp
    · rw [if_neg h]
      simp only [List.map_cons, ih]
      by_cases hmem : c.source ∈ gs.map (fun g => g.src)
      · rw [if_pos hmem, if_pos (by simp [hmem])]
      · have hnot : c.source ∉ g.src :: gs.map (fun g => g.src) := by
          intro hx
          rcases List.mem_cons.mp hx with h1 | h1
          · exact h h1.symm
          · exact hmem h1
        rw [if_neg hmem, if_neg hnot, List.cons_append]

theorem addCand_chunks_perm (c : Candidate) :
    ∀ acc : List GroupAcc,
    ((addCand acc c).flatMap (fun g => g.chunks)).Perm
      ((acc.flatMap (fun g => g.chunks)) ++ [fmtResult c]) := by
  intro acc
  induction acc with
  | nil => simp [addCand]
  | cons g gs ih =>
    rw [addCand]
    by_cases h : g.src = c.source
    · rw [if_pos h]
      simp only [List.flatMap_cons]
      rw [List.append_assoc, List.append_assoc]
      exact List.perm_append_comm.append_left g.chunks
    · rw [if_neg h]
      simp only [List.flatMap_cons]
      rw [List.append_assoc]
      exact ih.append_left g.chunks

/-- Invariant carried by every `files_dict` entry: the stored raw best
similarity is the maximum of the raw similarities of the chunks
collected so far, whose rounded percentages are the chunk entries'
similarity fields. -/
def GroupBestInv (g : GroupAcc) : Prop :=
  ∃ raws : List ℚ, raws ≠ [] ∧
    g.chunks.map (fun ch => ch.similarity)
      = raws.map (fun r => pyRound2 (r * 100)) ∧
    g.best ∈ raws ∧ ∀ r ∈ raws, r ≤ g.best

theorem addCand_bestInv (c : Candidate) :
    ∀ acc : List GroupAcc, (∀ g ∈ acc, GroupBestInv g) →
    ∀ g ∈ addCand acc c, GroupBestInv g := by
  intro acc
  induction acc with
  | nil =>
    intro _ g hg
    rw [addCand] at hg
    simp only [List.mem_singleton] at hg
    subst hg
    refine ⟨[c.similarity], by simp, by simp [fmtResult], by simp, by simp⟩
  | cons g0 gs ih =>
    intro hall g hg
    rw [addCand] at hg
    by_cases h : g0.src = c.source
    · rw [if_pos h] at hg
      rcases List.mem_cons.mp hg with rfl | hg2
      · obtain ⟨raws, hne, hmap, hbmem, hble⟩ :=
          hall g0 (List.mem_cons_self g0 gs)
        refine ⟨raws ++ [c.similarity], by simp, ?_, ?_, ?_⟩
        · simp only [List.map_append, ← hmap]
          simp [fmtResult]
        · by_cases hb : g0.best < c.similarity
          · simp [hb]
          · simp only [if_neg hb]
            simp only [List.mem_append]
            exact Or.inl hbmem
        · intro r hr
          rcases List.mem_append.mp hr with hr | hr
          · by_cases hb : g0.best < c.similarity
            · simp only [if_pos hb]
              exact le_trans (hble r hr) (le_of_lt hb)
            · simp only [if_neg hb]
              exact hble r hr
          · simp only [List.mem_singleton] at hr
            subst hr
            by_cases hb : g0.best < c.similarity
            · simp [hb]
            · simp only [if_neg hb]
              exact not_lt.mp hb
      · exact hall g (List.mem_cons_of_mem g0 hg2)
    · rw [if_neg h] at hg
      rcases List.mem_cons.mp hg with rfl | hg2
      · exact hall g (List.mem_cons_self g gs)
      · exact ih (fun x hx => hall x (List.mem_cons_of_mem g0 hx)) g hg2

theorem foldl_addCand_nodup :
    ∀ (cands : List Candidate) (acc : List GroupAcc),
    (acc.map (fun g => g.src)).Nodup →
    ((cands.foldl addCand acc).map (fun g => g.src)).Nodup := by
  intro cands
  induction cands with
  | nil => intro acc h; exact h
  | cons c rest ih =>
    intro acc h
    rw [List.foldl_cons]
    apply ih
    rw [addCand_srcs]
    by_cases hm : c.source ∈ acc.map (fun g => g.src)
    · rw [if_pos hm]; exact h
    · rw [if_neg hm]
      simp [List.nodup_append, h, hm]

theorem foldl_addCand_srcs_mem :
    ∀ (cands : List Candidate) (acc : List GroupAcc) (s : String),
    (s ∈ (cands.foldl addCand acc).map (fun g => g.src)) ↔
      s ∈ acc.map (fun g => g.src) ∨ s ∈ cands.map (fun c => c.source) := by
  intro cands
  induction cands with
  | nil => intro acc s; simp
  | cons c rest ih =>
    intro acc s
    rw [List.foldl_cons, ih, addCand_srcs]
    by_cases hm : c.source ∈ acc.map (fun g => g.src)
    · rw [if_pos hm]
      simp only [List.map_cons, List.mem_cons]
      constructor
      · intro h1; tauto
      · rintro (h1 | h1 | h1)
        · exact Or.inl h1
        · subst h1; exact Or.inl hm
        · exact Or.inr h1
    · rw [if_neg hm]
      simp only [List.mem_append, List.mem_singleton, List.map_cons,
        List.mem_cons]
      tauto

theorem foldl_addCand_chunks_perm :
    ∀ (cands : List Candidate) (acc : List GroupAcc),
    ((cands.foldl addCand acc).flatMap (fun g => g.chunks)).Perm
      ((acc.flatMap (fun g => g.chunks)) ++ cands.map fmtResult) := by
  intro cands
  induction cands with
  | nil => intro acc; simp
  | cons c rest ih =>
    intro acc
    rw [List.foldl_cons]
    refine (ih (addCand acc c)).trans ?_
    refine ((addCand_chunks_perm c acc).append_right (rest.map fmtResult)).trans ?_
    rw [List.append_assoc]
    exact List.Perm.refl _

theorem foldl_addCand_bestInv :
    ∀ (cands : List Candidate) (acc : List GroupAcc),
    (∀ g ∈ acc, GroupBestInv g) →
    ∀ g ∈ cands.foldl addCand acc, GroupBestInv g := by
  intro cands
  induction cands with
  | nil => intro acc h; exact h
  | cons c rest ih =>
    intro acc h
    rw [List.foldl_cons]
    exact ih (addCand acc c) (addCand_bestInv c acc h)

theorem groupsOf_length (cands : List Candidate) :
    (groupsOf cands).length = (cands.map (fun c => c.source)).dedup.length := by
  have hnd : ((groupsOf cands).map (fun g => g.src)).Nodup :=
    foldl_addCand_nodup cands [] (by simp)
  have hmem : ∀ s, s ∈ (groupsOf cands).map (fun g => g.src) ↔
      s ∈ cands.map (fun c => c.source) := by
    intro s
    have := foldl_addCand_srcs_mem cands [] s
    simpa [groupsOf] using this
  have h1 : ((groupsOf cands).map (fun g => g.src)).toFinset =
      (cands.map (fun c => c.source)).toFinset := by
    ext s
    simp only [List.mem_toFinset]
    exact hmem s
  have h2 : (groupsOf cands).length
      = ((groupsOf cands).map (fun g => g.src)).length := by simp
  rw [h2, ← List.dedup_eq_self.mpr hnd, ← List.card_toFinset,
    ← List.card_toFinset, h1]

/-- C10.  Assembler conservation: every candidate row appears exactly
once across the grouped files' chunk lists (the grouped output is a
permutation of the flat result list), the total chunk count over all
groups equals the flat list length, `total_results` is the flat list
length, and `total_files` is the number of distinct `source` values
among the candidates. -/
theorem assembler_conservation (req : SearchRequestM)
    (cands : List Candidate) :
    ((searchAssemble req cands).files.flatMap (fun f => f.chunks)).Perm
      (searchAssemble req cands).results ∧
    (((searchAssemble req cands).files.map (fun f => f.chunks.length)).sum
      = (searchAssemble req cands).results.length) ∧
    ((searchAssemble req cands).total_results
      = (searchAssemble req cands).results.length) ∧
    ((searchAssemble req cands).total_files
      = (cands.map (fun c => c.source)).dedup.length) := by
  have hgroups : ((groupsOf cands).flatMap (fun g => g.chunks)).Perm
      (cands.map fmtResult) := by
    have := foldl_addCand_chunks_perm cands []
    simpa [groupsOf] using this
  have hfiles : (searchAssemble req cands).files =
      (pySortDesc (fun g => g.best) (groupsOf cands)).map finalizeGroup := rfl
  have hresults : (searchAssemble req cands).results = cands.map fmtResult :=
    rfl
  have hperm : ((searchAssemble req cands).files.flatMap
      (fun f => f.chunks)).Perm (searchAssemble req cands).results := by
    rw [hfiles, hresults]
    rw [List.flatMap_map]
    have h2 : ((pySortDesc (fun g => g.best) (groupsOf cands)).flatMap
        (fun g => (finalizeGroup g).chunks)).Perm
        ((pySortDesc (fun g => g.best) (groupsOf cands)).flatMap
          (fun g => g.chunks)) :=
      List.Perm.flatMap_left _ (fun g _ => pySortDesc_perm _ g.chunks)
    have h3 : ((pySortDesc (fun g => g.best) (groupsOf cands)).flatMap
        (fun g => g.chunks)).Perm
        ((groupsOf cands).flatMap (fun g => g.chunks)) :=
      List.Perm.flatMap_right _ (pySortDesc_perm _ _)
    exact (h2.trans h3).trans hgroups
  refine ⟨hperm, ?_, rfl, ?_⟩
  · have hsum : ((searchAssemble req cands).files.flatMap
        (fun f => f.chunks)).length
        = (((searchAssemble req cands).files.map
            (fun f => f.chunks.length)).sum) := by
      rw [List.flatMap]
      rw [List.length_flatten, List.map_map]
      rfl
    rw [← hsum, hperm.length_eq]
  · have hlen : (searchAssemble req cands).total_files
        = (groupsOf cands).length := by
      show ((pySortDesc (fun g => g.best) (groupsOf cands)).map
        finalizeGroup).length = _
      rw [List.length_map, (pySortDesc_perm _ _).length_eq]
    rw [hlen, groupsOf_length]

/-- C8 (amended).  The grouped output is the stable descending sort of
the first-appearance file groups by their raw (pre-rounding) best
similarity — not by the rounded displayed percentage.  Consequently the
displayed `best_similarity` values are non-increasing, each group's
`best_similarity` equals the maximum rounded similarity percentage
among its chunks, chunks inside a group are sorted by their rounded
percentage descending, and both sorts are stable: elements with equal
sort key keep their original (input / first-appearance) order.  Ties in
the raw key retain input order; ties that appear only after rounding
need not (see the counterexample theorem). -/
theorem grouped_result_ordering_amended (req : SearchRequestM)
    (cands : List Candidate) :
    (searchAssemble req cands).files =
      (pySortDesc (fun g => g.best) (groupsOf cands)).map finalizeGroup ∧
    (searchAssemble req cands).files.Pairwise
      (fun f f2 => f2.best_similarity ≤ f.best_similarity) ∧
    (∀ f ∈ (searchAssemble req cands).files,
      f.chunks ≠ [] ∧
      f.best_similarity ∈ f.chunks.map (fun ch => ch.similarity) ∧
      (∀ s ∈ f.chunks.map (fun ch => ch.similarity),
        s ≤ f.best_similarity) ∧
      f.chunks.Pairwise (fun a b => b.similarity ≤ a.similarity)) ∧
    (∀ g ∈ groupsOf cands, ∀ v,
      (pySortDesc (fun ch => ch.similarity) g.chunks).filter
          (fun ch => decide (ch.similarity = v))
        = g.chunks.filter (fun ch => decide (ch.similarity = v))) ∧
    (∀ v, (pySortDesc (fun g => g.best) (groupsOf cands)).filter
        (fun g => decide (g.best = v))
      = (groupsOf cands).filter (fun g => decide (g.best = v))) := by
  refine ⟨rfl, ?_, ?_, ?_, ?_⟩
  · show ((pySortDesc (fun g => g.best) (groupsOf cands)).map
      finalizeGroup).Pairwise _
    refine (pySortDesc_sorted (fun g => g.best) (groupsOf cands)).map
      finalizeGroup ?_
    intro a b hab
    show (finalizeGroup b).best_similarity ≤ (finalizeGroup a).best_similarity
    exact pyRound2_mono (by nlinarith)
  · intro f hf
    rw [show (searchAssemble req cands).files =
      (pySortDesc (fun g => g.best) (groupsOf cands)).map finalizeGroup
      from rfl] at hf
    obtain ⟨g, hg, rfl⟩ := List.mem_map.mp hf
    have hgmem : g ∈ groupsOf cands :=
      (pySortDesc_perm (fun g => g.best) (groupsOf cands)).mem_iff.mp hg
    obtain ⟨raws, hne, hmap, hbmem, hble⟩ :=
      foldl_addCand_bestInv cands [] (by simp) g hgmem
    have hchunks : (finalizeGroup g).chunks =
        pySortDesc (fun ch => ch.similarity) g.chunks := rfl
    have hcperm : ((finalizeGroup g).chunks.map (fun ch => ch.similarity)).Perm
        (raws.map (fun r => pyRound2 (r * 100))) := by
      rw [hchunks, ← hmap]
      exact (pySortDesc_perm _ g.chunks).map _
    refine ⟨?_, ?_, ?_, ?_⟩
    · intro h0
      rw [hchunks] at h0
      have hlp := (pySortDesc_perm (fun ch => ch.similarity) g.chunks).length_eq
      rw [h0, List.length_nil] at hlp
      have hlen : g.chunks.length = raws.length := by
        have := congrArg List.length hmap
        simpa using this
      exact hne (List.length_eq_zero.mp (by omega))
    · show pyRound2 (g.best * 100) ∈ _
      refine hcperm.mem_iff.mpr ?_
      exact List.mem_map_of_mem (fun r => pyRound2 (r * 100)) hbmem
    · intro s hs
      have hs2 := hcperm.mem_iff.mp hs
      obtain ⟨r, hr, rfl⟩ := List.mem_map.mp hs2
      show pyRound2 (r * 100) ≤ pyRound2 (g.best * 100)
      exact pyRound2_mono (by nlinarith [hble r hr])
    · rw [hchunks]
      exact pySortDesc_sorted (fun ch => ch.similarity) g.chunks
  · intro g _ v
    exact pySortDesc_stable (fun ch => ch.similarity) g.chunks v
  · intro v
    exact pySortDesc_stable (fun g => g.best) (groupsOf cands) v

/-- Concrete candidate rows for the ordering counterexample: two files
whose raw similarities differ (0.900001 vs 0.900009) but whose rounded
percentages coincide (both 90.0). -/
def cexCandA : Candidate :=
  { id := "1", content := "x", source := "a.txt",
    similarity := 900001 / 1000000, topic := none, project := none }

def cexCandB : Candidate :=
  { id := "2", content := "y", source := "b.txt",
    similarity := 900009 / 1000000, topic := none, project := none }

def cexReq : SearchRequestM :=
  { query := "q", match_threshold := 1 / 10, match_count := 10,
    topic := none, project := none }

def cexGroupA : GroupAcc :=
  { src := "a.txt", chunks := [fmtResult cexCandA], topic := none,
    project := none, best := 900001 / 1000000 }

def cexGroupB : GroupAcc :=
  { src := "b.txt", chunks := [fmtResult cexCandB], topic := none,
    project := none, best := 900009 / 1000000 }

theorem round_ninety_a : pyRound2 ((900001 / 1000000 : ℚ) * 100) = 90 := by
  have hf : ⌊(900001 / 1000000 : ℚ) * 100 * 100⌋ = 9000 := by
    rw [Int.floor_eq_iff]
    constructor <;> norm_num
  rw [pyRound2, roundHalfEven, hf]
  norm_num

theorem round_ninety_b : pyRound2 ((900009 / 1000000 : ℚ) * 100) = 90 := by
  have hf : ⌊(900009 / 1000000 : ℚ) * 100 * 100⌋ = 9000 := by
    rw [Int.floor_eq_iff]
    constructor <;> norm_num
  rw [pyRound2, roundHalfEven, hf]
  norm_num

theorem cex_groups : groupsOf [cexCandA, cexCandB] = [cexGroupA, cexGroupB] :=
  rfl

theorem cex_sort : pySortDesc (fun g => g.best) [cexGroupA, cexGroupB] =
    [cexGroupB, cexGroupA] := by
  rw [pySortDesc]
  rw [show ([cexGroupA, cexGroupB] : List GroupAcc).enum =
    [(0, cexGroupA), (1, cexGroupB)] from rfl]
  rw [List.foldr_cons, List.foldr_cons, List.foldr_nil]
  rw [insDesc, insDesc, insDesc]
  rw [if_neg (by
    rw [keyOrd]
    push_neg
    refine ⟨?_, ?_⟩ <;> norm_num [cexGroupA, cexGroupB])]
  rfl

/-- Counterexample to C8 as stated: the two candidates arrive with file
"a.txt" first; their displayed `best_similarity` percentages tie (both
90), yet the grouped output lists "b.txt" first, because the code sorts
groups by the raw pre-rounding similarity (0.900009 > 0.900001), not by
the displayed percentage — so a tie in `best_similarity` does not
retain the stable input order. -/
theorem grouped_result_ordering_cex :
    ((searchAssemble cexReq [cexCandA, cexCandB]).files.map
      (fun f => f.file_name) = ["b.txt", "a.txt"]) ∧
    ((searchAssemble cexReq [cexCandA, cexCandB]).files.map
      (fun f => f.best_similarity) = [90, 90]) ∧
    ([cexCandA, cexCandB].map (fun c => c.source) = ["a.txt", "b.txt"]) := by
  have hfiles : (searchAssemble cexReq [cexCandA, cexCandB]).files =
      [finalizeGroup cexGroupB, finalizeGroup cexGroupA] := by
    show (pySortDesc (fun g => g.best)
      (groupsOf [cexCandA, cexCandB])).map finalizeGroup = _
    rw [cex_groups, cex_sort]
    rfl
  refine ⟨?_, ?_, rfl⟩
  · rw [hfiles]
    rfl
  · rw [hfiles]
    show [pyRound2 (cexGroupB.best * 100), pyRound2 (cexGroupA.best * 100)]
      = [90, 90]
    rw [show cexGroupB.best = (900009 / 1000000 : ℚ) from rfl,
      show cexGroupA.best = (900001 / 1000000 : ℚ) from rfl,
      round_ninety_a, round_ninety_b]

/-- Witness for C8 (amended) at the concrete counterexample input. -/
theorem grouped_result_ordering_witness :
    (searchAssemble cexReq [cexCandA, cexCandB]).files =
      (pySortDesc (fun g => g.best)
        (groupsOf [cexCandA, cexCandB])).map finalizeGroup ∧
    (searchAssemble cexReq [cexCandA, cexCandB]).files.Pairwise
      (fun f f2 => f2.best_similarity ≤ f.best_similarity) ∧
    (∀ f ∈ (searchAssemble cexReq [cexCandA, cexCandB]).files,
      f.chunks ≠ [] ∧
      f.best_similarity ∈ f.chunks.map (fun ch => ch.similarity) ∧
      (∀ s ∈ f.chunks.map (fun ch => ch.similarity),
        s ≤ f.best_similarity) ∧
      f.chunks.Pairwise (fun a b => b.similarity ≤ a.similarity)) ∧
    (∀ g ∈ groupsOf [cexCandA, cexCandB], ∀ v,
      (pySortDesc (fun ch => ch.similarity) g.chunks).filter
          (fun ch => decide (ch.similarity = v))
        = g.chunks.filter (fun ch => decide (ch.similarity = v))) ∧
    (∀ v, (pySortDesc (fun g => g.best)
        (groupsOf [cexCandA, cexCandB])).filter
        (fun g => decide (g.best = v))
      = (groupsOf [cexCandA, cexCandB]).filter
          (fun g => decide (g.best = v))) :=
  grouped_result_ordering_amended cexReq [cexCandA, cexCandB]

/-! ### Ingestion (`ingest_document`, ingest.py lines 231-277).  Text
extraction and the embedding model are external; the function receives
the extracted text and the (order-preserving, one-vector-per-chunk)
embedding function, and returns the record batch handed to the single
`insert` call — or `none` when ingestion aborts before any write. -/

/-- The whitespace test behind Python's `text.strip()` emptiness check
(ASCII whitespace). -/
def pyIsSpace (c : Char) : Bool :=
  c = ' ' || c = '\t' || c = '\n' || c = '\r' || c = '\x0b' || c = '\x0c'

/-- One storage record of the batch insert
(`{content, source, embedding, topic, project}`). -/
structure RecordM where
  content : List Char
  source : String
  embedding : List ℚ
  topic : Option String
  project : Option String

/-- Python `topic or categorization.get("topic")`: the explicit value
wins unless it is falsy (absent or the empty string). -/
def pyOrStr (a b : Option String) : Option String :=
  match a with
  | none => b
  | some s => if s = "" then b else some s

/-- `ingest_document`: abort with no records when the extracted text is
blank; otherwise fill missing topic/project from the classifier, chunk
with the fixed defaults (500, 100), pair every chunk with its embedding,
and return the batch passed to the single store insert.  A `none` from
the chunker (impossible for the 500/100 defaults) propagates. -/
def ingest_document (text : List Char) (filename : String)
    (topic0 project0 : Option String)
    (embed : List (List Char) → List (List ℚ)) : Option (List RecordM) :=
  if text.all pyIsSpace then none
  else
    let tp :=
      if topic0.isNone || project0.isNone then
        let cat := categorize_document text filename.toList
        (pyOrStr topic0 cat.1, pyOrStr project0 cat.2)
      else (topic0, project0)
    match chunk_text text 500 100 with
    | none => none
    | some chunks =>
      some ((chunks.zip (embed chunks)).map (fun ce =>
        { content := ce.1, source := filename, embedding := ce.2,
          topic := tp.1, project := tp.2 }))

/-- Chunking a 1200-character text with the fixed defaults yields
exactly three chunks, of lengths 500, 500 and 400. -/
theorem chunk_1200_lengths (text : List Char) (h : text.length = 1200) :
    ∃ cs, chunk_text text 500 100 = some cs ∧
      cs.map List.length = [500, 500, 400] := by
  obtain ⟨cs, h1, hpos, hG, hL, _⟩ := chunk_text_spec text 500 100 (by omega)
  have hiff := hL (by omega)
  have hlen : cs.length = 3 := by
    have h2 := hiff 2
    have h3 := hiff 3
    rw [h] at h2 h3
    norm_num at h2 h3
    omega
  obtain ⟨a, b, c, rfl⟩ := List.length_eq_three.mp hlen
  have ha := hG 0 (by omega)
  have hb := hG 1 (by omega)
  have hc := hG 2 (by omega)
  simp only [List.get] at ha hb hc
  refine ⟨[a, b, c], h1, ?_⟩
  have la : a.length = 500 := by
    rw [ha, window]
    simp only [List.length_take, List.length_drop, h]
    norm_num
  have lb : b.length = 500 := by
    rw [hb, window]
    simp only [List.length_take, List.length_drop, h]
    norm_num
  have lc : c.length = 400 := by
    rw [hc, window]
    simp only [List.length_take, List.length_drop, h]
    norm_num
  simp [la, lb, lc]

/-- Counterexample to C6 as stated: a 1200-character text chunks into
lengths 500, 500, 400 — not 500, 500, 300.  (The third chunk starts at
cursor 800 and runs to the end of the 1200-character text.) -/
theorem end_to_end_chunk_count_cex :
    ∃ cs, chunk_text (List.replicate 1200 'a') 500 100 = some cs ∧
      cs.map List.length = [500, 500, 400] ∧
      cs.map List.length ≠ [500, 500, 300] := by
  obtain ⟨cs, h1, h2⟩ :=
    chunk_1200_lengths (List.replicate 1200 'a')
      (by rw [List.length_replicate])
  refine ⟨cs, h1, h2, ?_⟩
  rw [h2]
  decide

/-- C6 (amended).  For every 1200-character text that is not entirely
whitespace (so ingestion does not abort), chunking with the fixed
defaults `size=500, overlap=100` produces exactly 3 chunks of lengths
500, 500, 400, and `ingest_document` builds exactly one storage record
per chunk — pairing chunk `i` with embedding `i` of the single
order-preserving embedding call — inserted as a single batch of 3
records. -/
theorem end_to_end_chunk_count_amended (text : List Char)
    (filename : String) (topic0 project0 : Option String)
    (embed : List (List Char) → List (List ℚ))
    (h1200 : text.length = 1200)
    (hnb : text.all pyIsSpace = false)
    (hembed : ∀ cs, (embed cs).length = cs.length) :
    ∃ chunks records,
      chunk_text text 500 100 = some chunks ∧
      chunks.map List.length = [500, 500, 400] ∧
      ingest_document text filename topic0 project0 embed = some records ∧
      records.length = 3 ∧
      records.map (fun r => r.content) = chunks ∧
      records.map (fun r => r.embedding) = embed chunks := by
  obtain ⟨chunks, hc, hlens⟩ := chunk_1200_lengths text h1200
  have hclen : chunks.length = 3 := by
    have := congrArg List.length hlens
    simpa using this
  have helen : (embed chunks).length = 3 := by rw [hembed, hclen]
  have hing : ingest_document text filename topic0 project0 embed =
      some ((chunks.zip (embed chunks)).map (fun ce =>
        { content := ce.1, source := filename, embedding := ce.2,
          topic := (if topic0.isNone || project0.isNone then
              (pyOrStr topic0 (categorize_document text filename.toList).1,
               pyOrStr project0 (categorize_document text filename.toList).2)
            else (topic0, project0)).1,
          project := (if topic0.isNone || project0.isNone then
              (pyOrStr topic0 (categorize_document text filename.toList).1,
               pyOrStr project0 (categorize_document text filename.toList).2)
            else (topic0, project0)).2 })) := by
    rw [ingest_document, if_neg (by simp [hnb]), hc]
  refine ⟨chunks, _, hc, hlens, hing, ?_, ?_, ?_⟩
  · rw [List.length_map, List.length_zip, hclen, helen]
    exact min_self 3
  · rw [List.map_map]
    exact (List.map_congr_left (fun ce _ => rfl)).trans
      (List.map_fst_zip chunks (embed chunks) (by omega))
  · rw [List.map_map]
    exact (List.map_congr_left (fun ce _ => rfl)).trans
      (List.map_snd_zip chunks (embed chunks) (by omega))

theorem replicate_a_not_blank :
    (List.replicate 1200 'a').all pyIsSpace = false := by
  rw [show (1200 : Nat) = 1199 + 1 from rfl, List.replicate_succ,
    List.all_cons, show pyIsSpace 'a' = false from by decide,
    Bool.false_and]

/-- Witness for C6 (amended) at a concrete input: 1200 letters "a",
with a length-preserving stub embedding function. -/
theorem end_to_end_chunk_count_witness :
    ((List.replicate 1200 'a').length = 1200) ∧
    ((List.replicate 1200 'a').all pyIsSpace = false) ∧
    (∀ cs : List (List Char),
      (cs.map (fun _ => ([0] : List ℚ))).length = cs.length) ∧
    ∃ chunks records,
      chunk_text (List.replicate 1200 'a') 500 100 = some chunks ∧
      chunks.map List.length = [500, 500, 400] ∧
      ingest_document (List.replicate 1200 'a') "demo.txt" none none
        (fun cs => cs.map (fun _ => ([0] : List ℚ))) = some records ∧
      records.length = 3 ∧
      records.map (fun r => r.content) = chunks ∧
      records.map (fun r => r.embedding) = chunks.map (fun _ => ([0] : List ℚ)) :=
  ⟨by rw [List.length_replicate], replicate_a_not_blank,
    fun cs => by rw [List.length_map],
    end_to_end_chunk_count_amended (List.replicate 1200 'a') "demo.txt"
      none none (fun cs => cs.map (fun _ => ([0] : List ℚ)))
      (by rw [List.length_replicate]) replicate_a_not_blank
      (fun cs => by rw [List.length_map])⟩

end Synapse
